import Mathlib

/-!
Verification of the jsolines Marching Squares isoline extractor.

The development shallowly embeds the algorithm of `src/unnamed/part_001`
(the current module: `jsolines`, `followLoop`, `interpolate`,
`noInterpolate`, `ensureFractionIsNumber`, `getContour`).  Grid
coordinates and cell indices are integers; scalar samples and the cutoff
are rationals; JavaScript numbers that may be non-finite (the computed
edge-crossing fractions) are modelled by `JSNum`, an extended rational
with NaN and the two infinities.  Flat row-major array reads
`surface[y * width + x]` are modelled by applying a total function
`surface : ℤ → ℚ` to the same index expression.  The mutable `found`
byte array is modelled as a boolean-valued function updated pointwise,
and the `while (true)` tracing loop as a fuel-indexed step interpreter;
since every continuing iteration appends exactly one coordinate and the
loop aborts once the count exceeds `maxCoordinates`, fuel
`maxCoordinates + 2` is enough for every JavaScript behaviour.
The external `@turf` point-in-polygon test and the caller-supplied
`project` callback are parameters of the model.
-/

namespace Jsolines

/-- A JavaScript number as produced by the fraction computation: either a
finite (here: rational) value, one of the two infinities, or NaN. -/
inductive JSNum where
  | finite : ℚ → JSNum
  | posInf : JSNum
  | negInf : JSNum
  | nan : JSNum
deriving DecidableEq

instance : Inhabited JSNum := ⟨JSNum.finite 0⟩

/-- JavaScript division of two finite numbers: `a / 0` is NaN when `a = 0`
and a signed infinity otherwise. -/
def jsDiv (a b : ℚ) : JSNum :=
  if b = 0 then
    if a = 0 then JSNum.nan
    else if a > 0 then JSNum.posInf
    else JSNum.negInf
  else JSNum.finite (a / b)

/-- JavaScript addition of a finite number and a possibly non-finite one
(`q + NaN = NaN`, `q + ±∞ = ±∞`). -/
def jsAddQ (q : ℚ) (f : JSNum) : JSNum :=
  match f with
  | JSNum.finite r => JSNum.finite (q + r)
  | f => f

/-- `ensureFractionIsNumber` from `src/unnamed/part_001`: the JavaScript
test is `isNaN(frac) || frac === Infinity`, replacing those values by
`0.5`.  (The logging argument is omitted; logging is outside the model.) -/
def ensureFractionIsNumber (frac : JSNum) : JSNum :=
  if frac = JSNum.nan ∨ frac = JSNum.posInf then JSNum.finite (1/2) else frac

/-- A 2-D coordinate as emitted into a ring. -/
abbrev Coord : Type := JSNum × JSNum

/-- A ring: an ordered list of coordinates. -/
abbrev Ring : Type := List Coord

/-- A polygon: its outer ring followed by any interior (hole) rings. -/
abbrev Poly : Type := List Ring

/-- The packed 4-bit Marching Squares case value: `idx |= 1 << 3` for
top-left, `1 << 2` for top-right, `1 << 1` for bottom-right and `1` for
bottom-left, as in `getContour`. -/
def caseIndex (topLeft topRight botRight botLeft : Bool) : ℕ :=
  (((if topLeft then 1 <<< 3 else 0) |||
    (if topRight then 1 <<< 2 else 0)) |||
    (if botRight then 1 <<< 1 else 0)) |||
    (if botLeft then 1 else 0)

/-- `getContour` from `src/unnamed/part_001`, as the per-cell function of
the array it fills: `contour[y * (width-1) + x]` holds the value computed
below for cell `(x, y)`.  The four corner comparisons are strict, and the
edge-closing rule then forces the boundary-side booleans to `false`, in
the source's assignment order. -/
def getContour (surface : ℤ → ℚ) (width height : ℤ) (cutoff : ℚ) (x y : ℤ) : ℕ :=
  let index := y * width + x
  let topLeft := decide (surface index < cutoff)
  let topRight := decide (surface (index + 1) < cutoff)
  let botLeft := decide (surface (index + width) < cutoff)
  let botRight := decide (surface (index + width + 1) < cutoff)
  let topLeft := if x = 0 then false else topLeft
  let botLeft := if x = 0 then false else botLeft
  let topRight := if x = width - 2 then false else topRight
  let botRight := if x = width - 2 then false else botRight
  let topLeft := if y = 0 then false else topLeft
  let topRight := if y = 0 then false else topRight
  let botRight := if y = height - 2 then false else botRight
  let botLeft := if y = height - 2 then false else botLeft
  caseIndex topLeft topRight botRight botLeft

/-- `followLoop` from `src/unnamed/part_001`: the case → exit-direction
switch.  A case outside the switch (0, 15, or out of range) falls through
in JavaScript and yields `undefined`, modelled as `none`. -/
def followLoop (idx : ℕ) (prevx prevy x y : ℤ) : Option (ℤ × ℤ) :=
  match idx with
  | 1 => some (x - 1, y)
  | 2 => some (x, y + 1)
  | 3 => some (x - 1, y)
  | 4 => some (x + 1, y)
  | 5 =>
    if prevy > y then some (x + 1, y)
    else if prevy < y then some (x - 1, y)
    else some (x, y)
  | 6 => some (x, y + 1)
  | 7 => some (x - 1, y)
  | 8 => some (x, y - 1)
  | 9 => some (x, y - 1)
  | 10 =>
    if prevx < x then some (x, y + 1)
    else if prevx > x then some (x, y - 1)
    else some (x, y)
  | 11 => some (x, y - 1)
  | 12 => some (x + 1, y)
  | 13 => some (x + 1, y)
  | 14 => some (x, y + 1)
  | _ => none

/-- The four corner samples of a cell. -/
structure Corners where
  topLeft : ℚ
  topRight : ℚ
  botLeft : ℚ
  botRight : ℚ
deriving DecidableEq

/-- The corner-sample reads and boundary overrides at the top of
`interpolate` in `src/unnamed/part_001`: boundary-adjacent corners are
replaced by the cutoff, in the source's assignment order
(`x === 0`, `y === 0`, `y === height - 2`, `x === width - 2`). -/
def adjustCorners (cutoff : ℚ) (surface : ℤ → ℚ) (width height x y : ℤ) : Corners :=
  let index := y * width + x
  let topLeft := surface index
  let topRight := surface (index + 1)
  let botLeft := surface (index + width)
  let botRight := surface (index + width + 1)
  let topLeft := if x = 0 then cutoff else topLeft
  let botLeft := if x = 0 then cutoff else botLeft
  let topLeft := if y = 0 then cutoff else topLeft
  let topRight := if y = 0 then cutoff else topRight
  let botRight := if y = height - 2 then cutoff else botRight
  let botLeft := if y = height - 2 then cutoff else botLeft
  let topRight := if x = width - 2 then cutoff else topRight
  let botRight := if x = width - 2 then cutoff else botRight
  ⟨topLeft, topRight, botLeft, botRight⟩

/-- `interpolate` from `src/unnamed/part_001`: picks the crossed edge by
comparing the previous cell `(startx, starty)` with the new cell `(x, y)`
and linearly interpolates along it; falling through every branch (no
movement) yields `undefined`, modelled as `none`. -/
def interpolate (cutoff : ℚ) (height startx starty : ℤ) (surface : ℤ → ℚ)
    (width x y : ℤ) : Option Coord :=
  let c := adjustCorners cutoff surface width height x y
  if startx < x then
    some (JSNum.finite x,
      jsAddQ y (ensureFractionIsNumber (jsDiv (cutoff - c.topLeft) (c.botLeft - c.topLeft))))
  else if startx > x then
    some (JSNum.finite (x + 1),
      jsAddQ y (ensureFractionIsNumber (jsDiv (cutoff - c.topRight) (c.botRight - c.topRight))))
  else if starty > y then
    some (jsAddQ x (ensureFractionIsNumber (jsDiv (cutoff - c.botLeft) (c.botRight - c.botLeft))),
      JSNum.finite (y + 1))
  else if starty < y then
    some (jsAddQ x (ensureFractionIsNumber (jsDiv (cutoff - c.topLeft) (c.topRight - c.topLeft))),
      JSNum.finite y)
  else none

/-- `noInterpolate` from `src/unnamed/part_001`: the fixed-midpoint
variant used when interpolation is disabled. -/
def noInterpolate (startx starty x y : ℤ) : Option Coord :=
  if startx < x then some (JSNum.finite x, JSNum.finite (y + 1/2))
  else if startx > x then some (JSNum.finite (x + 1), JSNum.finite (y + 1/2))
  else if starty > y then some (JSNum.finite (x + 1/2), JSNum.finite (y + 1))
  else if starty < y then some (JSNum.finite (x + 1/2), JSNum.finite y)
  else none

/-- The `MAX_COORDS` constant of `src/unnamed/part_001`, the default for
`maxCoordinates`. -/
def MAX_COORDS : ℕ := 20000

/-- The inputs of `jsolines`.  `project` and `inside` stand for the
caller-supplied projection callback and the external `@turf`
point-in-polygon test. -/
structure Params where
  cutoff : ℚ
  height : ℤ
  width : ℤ
  maxCoordinates : ℕ
  project : Coord → Coord
  interpolation : Bool
  inside : Coord → Poly → Bool
  surface : ℤ → ℚ

/-- The mutable locals of one ring trace: the `found` marks (shared with
the outer scan), the current cell `(x, y)`, the two levels of history
`(startx, starty)` and `(prevx, prevy)`, the winding accumulator, and the
projected coordinates collected so far. -/
structure RingState where
  found : ℤ → ℤ → Bool
  x : ℤ
  y : ℤ
  prevx : ℤ
  prevy : ℤ
  startx : ℤ
  starty : ℤ
  direction : ℤ
  coords : List Coord

/-- `found[y * cWidth + x] = 1`, as a pointwise function update. -/
def markFound (found : ℤ → ℤ → Bool) (x y : ℤ) : ℤ → ℤ → Bool :=
  fun a b => if a = x ∧ b = y then true else found a b

/-- The outcome of one iteration of the `while (true)` tracing loop:
`aborted` for every `break` that discards the ring, `stuck` for the
JavaScript crash when `followLoop` returns `undefined`, `closed` when the
trace returned to its start cell (the `Bool` is the shell test
`direction > 0`), `next` to continue looping. -/
inductive StepResult where
  | aborted : RingState → StepResult
  | stuck : RingState → StepResult
  | closed : Bool → Ring → RingState → StepResult
  | next : RingState → StepResult

/-- One iteration of the tracing loop of `jsolines` in
`src/unnamed/part_001` (lines 83–154): the `found` re-entry guard, the
history shift, the saddle-aware `found` mark, the 0/15 guard, the
`followLoop` move, the winding update, the coordinate computation and
projection, the `maxCoordinates` guard, and the ring-closing test. -/
def ringStep (p : Params) (contour : ℤ → ℤ → ℕ) (origx origy : ℤ)
    (s : RingState) : StepResult :=
  if s.found s.x s.y then StepResult.aborted s
  else
    let prevx := s.startx
    let prevy := s.starty
    let startx := s.x
    let starty := s.y
    let idx := contour s.x s.y
    let found := if idx ≠ 5 ∧ idx ≠ 10 then markFound s.found s.x s.y else s.found
    let s₁ : RingState :=
      { s with found := found, prevx := prevx, prevy := prevy,
               startx := startx, starty := starty }
    if idx = 0 ∨ idx = 15 then StepResult.aborted s₁
    else
      match followLoop idx prevx prevy s.x s.y with
      | none => StepResult.stuck s₁
      | some (nx, ny) =>
        let direction := s.direction + (nx - startx) * (ny + starty)
        let coord? :=
          if p.interpolation then
            interpolate p.cutoff p.height startx starty p.surface p.width nx ny
          else noInterpolate startx starty nx ny
        match coord? with
        | none => StepResult.aborted { s₁ with x := nx, y := ny, direction := direction }
        | some coord =>
          let coords := s.coords ++ [p.project coord]
          let s₂ : RingState :=
            { s₁ with x := nx, y := ny, direction := direction, coords := coords }
          if coords.length > p.maxCoordinates then StepResult.aborted s₂
          else if nx = origx ∧ ny = origy then
            StepResult.closed (decide (direction > 0)) (coords ++ [coords.headI]) s₂
          else StepResult.next s₂

/-- The outcome of a whole ring trace. -/
inductive TraceResult where
  | aborted : RingState → TraceResult
  | stuck : RingState → TraceResult
  | closed : Bool → Ring → RingState → TraceResult
  | outOfFuel : RingState → TraceResult

/-- The `while (true)` tracing loop as a fuel-indexed iteration of
`ringStep`. -/
def traceRing (p : Params) (contour : ℤ → ℤ → ℕ) (origx origy : ℤ) :
    ℕ → RingState → TraceResult
  | 0, s => TraceResult.outOfFuel s
  | fuel + 1, s =>
    match ringStep p contour origx origy s with
    | StepResult.aborted s => TraceResult.aborted s
    | StepResult.stuck s => TraceResult.stuck s
    | StepResult.closed b r s => TraceResult.closed b r s
    | StepResult.next s => traceRing p contour origx origy fuel s

/-- The ring-trace initialisation in `jsolines`: current cell at the scan
cell, all history at `-1`, direction `0`, no coordinates. -/
def initRing (found : ℤ → ℤ → Bool) (origx origy : ℤ) : RingState :=
  { found := found, x := origx, y := origy, prevx := -1, prevy := -1,
    startx := -1, starty := -1, direction := 0, coords := [] }

/-- The scan-level state of `jsolines`: the `found` marks and the shell
and hole collections, in discovery order. -/
structure ScanAcc where
  found : ℤ → ℤ → Bool
  shells : List Poly
  holes : List Ring

/-- The initial scan state. -/
def initAcc : ScanAcc := { found := fun _ _ => false, shells := [], holes := [] }

/-- The row-major scan order of `jsolines`: `origy` outer from `0` to
`height - 2`, `origx` inner from `0` to `width - 2`. -/
def scanCells (width height : ℤ) : List (ℤ × ℤ) :=
  (List.range (height - 1).toNat).flatMap fun oy =>
    (List.range (width - 1).toNat).map fun ox => ((ox : ℤ), (oy : ℤ))

/-- The body of the scan over one cell: skip cells already found and
cells whose case is 0, 5, 10 or 15, otherwise trace a ring from here.  A
closed trace appends a polygon to `shells` or a ring to `holes` by the
winding test; an aborted trace only keeps the `found` marks; a stuck
trace is the JavaScript crash, which ends the whole call. -/
def visitCell (p : Params) (contour : ℤ → ℤ → ℕ) (acc : ScanAcc)
    (cell : ℤ × ℤ) : Except Unit ScanAcc :=
  let origx := cell.1
  let origy := cell.2
  if acc.found origx origy then Except.ok acc
  else
    let idx := contour origx origy
    if idx = 0 ∨ idx = 5 ∨ idx = 10 ∨ idx = 15 then Except.ok acc
    else
      match traceRing p contour origx origy (p.maxCoordinates + 2)
          (initRing acc.found origx origy) with
      | TraceResult.closed b r s =>
        if b then
          Except.ok { acc with found := s.found, shells := acc.shells ++ [[r]] }
        else
          Except.ok { acc with found := s.found, holes := acc.holes ++ [r] }
      | TraceResult.aborted s => Except.ok { acc with found := s.found }
      | TraceResult.stuck _ => Except.error ()
      | TraceResult.outOfFuel _ => Except.error ()

/-- The full scan of `jsolines` over all cells. -/
def scanAll (p : Params) (contour : ℤ → ℤ → ℕ) : Except Unit ScanAcc :=
  (scanCells p.width p.height).foldlM (visitCell p contour) initAcc

/-- `shells.find(shell => inside(holePoint, shell))` followed by the push
of the hole's ring onto the first containing shell, as one structural
recursion; when no shell contains the point the hole is dropped and the
shells are returned unchanged. -/
def addHole (inside : Coord → Poly → Bool) (holePoint : Coord) (ring : Ring) :
    List Poly → List Poly
  | [] => []
  | shell :: rest =>
    if inside holePoint shell then (shell ++ [ring]) :: rest
    else shell :: addHole inside holePoint ring rest

/-- The `holes.forEach` nesting pass of `jsolines`: each hole, in
discovery order, is tested by its first coordinate
(`hole.geometry.coordinates[0][0]`) against the current shells. -/
def nestHoles (inside : Coord → Poly → Bool) (shells : List Poly)
    (holes : List Ring) : List Poly :=
  holes.foldl (fun acc hole => addHole inside hole.headI hole acc) shells

/-- The whole `jsolines` pipeline: build the contour grid, scan and trace
all rings, then nest holes into shells.  The result is the multi-polygon
coordinate list `shells.map(s => s.geometry.coordinates)`. -/
def jsolines (p : Params) : Except Unit (List Poly) :=
  let contour := getContour p.surface p.width p.height p.cutoff
  match scanAll p contour with
  | Except.error e => Except.error e
  | Except.ok acc => Except.ok (nestHoles p.inside acc.shells acc.holes)

/-! ### Concrete evaluation fixtures

A 3×3 surface whose centre sample is the only one below the cutoff.  Its
contour grid is `[[2, 1], [4, 8]]` and tracing from `(0, 0)` closes a
4-step shell ring, which the witnesses below evaluate. -/

/-- 3×3 surface: sample 0 at flat index 4 (the centre point `(1, 1)`),
sample 10 everywhere else. -/
def wSurface : ℤ → ℚ := fun i => if i = 4 then 0 else 10

/-- Concrete parameters over `wSurface`, midpoint mode, identity
projection, cutoff 5, `maxCoordinates` 10. -/
def wParams : Params :=
  { cutoff := 5, height := 3, width := 3, maxCoordinates := 10,
    project := id, interpolation := false, inside := fun _ _ => true,
    surface := wSurface }

/-- The contour grid of the fixture. -/
def wContour : ℤ → ℤ → ℕ := getContour wSurface 3 3 5

/-- The state reached by a step, whatever its outcome. -/
def stepState : StepResult → RingState
  | StepResult.next s => s
  | StepResult.closed _ _ s => s
  | StepResult.aborted s => s
  | StepResult.stuck s => s

/-- The shell flag of a closing step (`false` otherwise). -/
def stepIsShell : StepResult → Bool
  | StepResult.closed b _ _ => b
  | _ => false

/-- The ring of a closing step (`[]` otherwise). -/
def stepRing : StepResult → Ring
  | StepResult.closed _ r _ => r
  | _ => []

/-- The fixture trace, step by step from the scan start at `(0, 0)`. -/
def wState0 : RingState := initRing (fun _ _ => false) 0 0

/-- After one step: cell `(0, 1)`. -/
def wState1 : RingState := stepState (ringStep wParams wContour 0 0 wState0)

/-- After two steps: cell `(1, 1)`. -/
def wState2 : RingState := stepState (ringStep wParams wContour 0 0 wState1)

/-- After three steps: cell `(1, 0)`. -/
def wState3 : RingState := stepState (ringStep wParams wContour 0 0 wState2)

/-- The fourth step, which closes the ring back at `(0, 0)`. -/
def wStep3 : StepResult := ringStep wParams wContour 0 0 wState3

/-- The closing step's state. -/
def wState4 : RingState := stepState wStep3

/-- The closing step's shell flag. -/
def wB : Bool := stepIsShell wStep3

/-- The closing step's ring. -/
def wRing : Ring := stepRing wStep3

/-- The full pipeline output on the fixture. -/
def wOut : List Poly := (jsolines wParams).toOption.getD []

/-- The single output ring of the fixture. -/
def wRing0 : Ring := wOut.headI.headI

/-- A state already holding `maxCoordinates` coordinates, for the
ring-size guard witness. -/
def wFull : RingState :=
  { wState0 with coords := List.replicate 10 (JSNum.finite 0, JSNum.finite 0) }

/-- A point-in-polygon stub for the nesting witness: a polygon contains
every point iff it is non-empty. -/
def wInside : Coord → Poly → Bool := fun _ poly => decide (poly ≠ [])

/-- An empty polygon (contains nothing under `wInside`). -/
def wPolyA : Poly := []

/-- A one-ring polygon (contains everything under `wInside`). -/
def wPolyB : Poly := [[(JSNum.finite 0, JSNum.finite 0)]]

/-- A hole ring for the nesting witness. -/
def wHoleRing : Ring := [(JSNum.finite 1, JSNum.finite 1)]

/-- A ring property holding throughout a scan state: of every ring of
every shell polygon, and of every pending hole ring. -/
def AccProp (Q : Ring → Prop) (acc : ScanAcc) : Prop :=
  (∀ poly ∈ acc.shells, ∀ r ∈ poly, Q r) ∧ ∀ r ∈ acc.holes, Q r

/-! ### Contour classifier lemmas -/

/-- Bit 3 of the packed case value is the top-left flag. -/
lemma caseIndex_testBit3 (tl tr br bl : Bool) : (caseIndex tl tr br bl).testBit 3 = tl := by
  cases tl <;> cases tr <;> cases br <;> cases bl <;> decide

/-- Bit 2 of the packed case value is the top-right flag. -/
lemma caseIndex_testBit2 (tl tr br bl : Bool) : (caseIndex tl tr br bl).testBit 2 = tr := by
  cases tl <;> cases tr <;> cases br <;> cases bl <;> decide

/-- Bit 1 of the packed case value is the bottom-right flag. -/
lemma caseIndex_testBit1 (tl tr br bl : Bool) : (caseIndex tl tr br bl).testBit 1 = br := by
  cases tl <;> cases tr <;> cases br <;> cases bl <;> decide

/-- Bit 0 of the packed case value is the bottom-left flag. -/
lemma caseIndex_testBit0 (tl tr br bl : Bool) : (caseIndex tl tr br bl).testBit 0 = bl := by
  cases tl <;> cases tr <;> cases br <;> cases bl <;> decide

/-- Bit 3 of the contour case holds exactly when the top-left sample is
strictly below the cutoff and the cell is away from the left and top
boundaries. -/
lemma getContour_bit3 (surface : ℤ → ℚ) (width height : ℤ) (cutoff : ℚ) (x y : ℤ) :
    (getContour surface width height cutoff x y).testBit 3 = true ↔
      x ≠ 0 ∧ y ≠ 0 ∧ surface (y * width + x) < cutoff := by
  simp only [getContour]
  split_ifs <;> rw [caseIndex_testBit3] <;> simp_all

/-- Bit 2 of the contour case holds exactly when the top-right sample is
strictly below the cutoff and the cell is away from the right and top
boundaries. -/
lemma getContour_bit2 (surface : ℤ → ℚ) (width height : ℤ) (cutoff : ℚ) (x y : ℤ) :
    (getContour surface width height cutoff x y).testBit 2 = true ↔
      x ≠ width - 2 ∧ y ≠ 0 ∧ surface (y * width + x + 1) < cutoff := by
  simp only [getContour]
  split_ifs <;> rw [caseIndex_testBit2] <;> simp_all

/-- Bit 1 of the contour case holds exactly when the bottom-right sample
is strictly below the cutoff and the cell is away from the right and
bottom boundaries. -/
lemma getContour_bit1 (surface : ℤ → ℚ) (width height : ℤ) (cutoff : ℚ) (x y : ℤ) :
    (getContour surface width height cutoff x y).testBit 1 = true ↔
      x ≠ width - 2 ∧ y ≠ height - 2 ∧ surface (y * width + x + width + 1) < cutoff := by
  simp only [getContour]
  split_ifs <;> rw [caseIndex_testBit1] <;> simp_all

/-- Bit 0 of the contour case holds exactly when the bottom-left sample
is strictly below the cutoff and the cell is away from the left and
bottom boundaries. -/
lemma getContour_bit0 (surface : ℤ → ℚ) (width height : ℤ) (cutoff : ℚ) (x y : ℤ) :
    (getContour surface width height cutoff x y).testBit 0 = true ↔
      x ≠ 0 ∧ y ≠ height - 2 ∧ surface (y * width + x + width) < cutoff := by
  simp only [getContour]
  split_ifs <;> rw [caseIndex_testBit0] <;> simp_all

/-- Full characterisation of the contour case bits: each bit holds
exactly when the corner's sample is strictly below the cutoff and the
cell does not touch the grid boundary on that corner's sides. -/
lemma getContour_char (surface : ℤ → ℚ) (width height : ℤ) (cutoff : ℚ) (x y : ℤ) :
    ((getContour surface width height cutoff x y).testBit 3 = true ↔
      x ≠ 0 ∧ y ≠ 0 ∧ surface (y * width + x) < cutoff) ∧
    ((getContour surface width height cutoff x y).testBit 2 = true ↔
      x ≠ width - 2 ∧ y ≠ 0 ∧ surface (y * width + x + 1) < cutoff) ∧
    ((getContour surface width height cutoff x y).testBit 1 = true ↔
      x ≠ width - 2 ∧ y ≠ height - 2 ∧ surface (y * width + x + width + 1) < cutoff) ∧
    ((getContour surface width height cutoff x y).testBit 0 = true ↔
      x ≠ 0 ∧ y ≠ height - 2 ∧ surface (y * width + x + width) < cutoff) :=
  ⟨getContour_bit3 surface width height cutoff x y,
   getContour_bit2 surface width height cutoff x y,
   getContour_bit1 surface width height cutoff x y,
   getContour_bit0 surface width height cutoff x y⟩

/-- Claim C2: for every cell `(x, y)` with `0 ≤ x < width - 1` and
`0 ≤ y < height - 1`, the contour classifier encodes the case with bit 3
iff the top-left corner is below threshold, bit 2 iff top-right, bit 1
iff bottom-right, bit 0 iff bottom-left (after boundary forcing), where
below threshold means strictly less than the cutoff. -/
theorem contour_case_encoding (surface : ℤ → ℚ) (width height : ℤ) (cutoff : ℚ)
    (x y : ℤ) (hx0 : 0 ≤ x) (hx1 : x < width - 1) (hy0 : 0 ≤ y) (hy1 : y < height - 1) :
    ((getContour surface width height cutoff x y).testBit 3 = true ↔
      x ≠ 0 ∧ y ≠ 0 ∧ surface (y * width + x) < cutoff) ∧
    ((getContour surface width height cutoff x y).testBit 2 = true ↔
      x ≠ width - 2 ∧ y ≠ 0 ∧ surface (y * width + x + 1) < cutoff) ∧
    ((getContour surface width height cutoff x y).testBit 1 = true ↔
      x ≠ width - 2 ∧ y ≠ height - 2 ∧ surface (y * width + x + width + 1) < cutoff) ∧
    ((getContour surface width height cutoff x y).testBit 0 = true ↔
      x ≠ 0 ∧ y ≠ height - 2 ∧ surface (y * width + x + width) < cutoff) :=
  getContour_char surface width height cutoff x y

/-- Witness for C2, at the interior-free corner cell `(0, 0)` of the
3×3 fixture: bit 3 is clear there (boundary-forced), and the bounds
hypotheses hold. -/
theorem contour_case_encoding_witness :
    (0 : ℤ) ≤ 0 ∧ (0 : ℤ) < 3 - 1 ∧
      ¬((getContour wSurface 3 3 5 0 0).testBit 3 = true) :=
  ⟨le_refl 0, by decide,
    fun h => by
      have h2 := (contour_case_encoding wSurface 3 3 5 0 0 (by decide) (by decide)
        (by decide) (by decide)).1.mp h
      exact h2.1 rfl⟩

/-- Claim C3: a cell touching the grid boundary has the corner bits on
that side cleared regardless of the samples: `x = 0` clears top-left
(bit 3) and bottom-left (bit 0); `x = width - 2` clears top-right (bit 2)
and bottom-right (bit 1); `y = 0` clears top-left and top-right;
`y = height - 2` clears bottom-right and bottom-left. -/
theorem contour_boundary_forcing (surface : ℤ → ℚ) (width height : ℤ) (cutoff : ℚ)
    (x y : ℤ) :
    (x = 0 → (getContour surface width height cutoff x y).testBit 3 = false ∧
      (getContour surface width height cutoff x y).testBit 0 = false) ∧
    (x = width - 2 → (getContour surface width height cutoff x y).testBit 2 = false ∧
      (getContour surface width height cutoff x y).testBit 1 = false) ∧
    (y = 0 → (getContour surface width height cutoff x y).testBit 3 = false ∧
      (getContour surface width height cutoff x y).testBit 2 = false) ∧
    (y = height - 2 → (getContour surface width height cutoff x y).testBit 1 = false ∧
      (getContour surface width height cutoff x y).testBit 0 = false) := by
  obtain ⟨e3, e2, e1, e0⟩ := getContour_char surface width height cutoff x y
  refine ⟨fun hx => ⟨?_, ?_⟩, fun hx => ⟨?_, ?_⟩, fun hy => ⟨?_, ?_⟩, fun hy => ⟨?_, ?_⟩⟩
  · cases hb : (getContour surface width height cutoff x y).testBit 3
    · rfl
    · exact absurd hx (e3.mp hb).1
  · cases hb : (getContour surface width height cutoff x y).testBit 0
    · rfl
    · exact absurd hx (e0.mp hb).1
  · cases hb : (getContour surface width height cutoff x y).testBit 2
    · rfl
    · exact absurd hx (e2.mp hb).1
  · cases hb : (getContour surface width height cutoff x y).testBit 1
    · rfl
    · exact absurd hx (e1.mp hb).1
  · cases hb : (getContour surface width height cutoff x y).testBit 3
    · rfl
    · exact absurd hy (e3.mp hb).2.1
  · cases hb : (getContour surface width height cutoff x y).testBit 2
    · rfl
    · exact absurd hy (e2.mp hb).2.1
  · cases hb : (getContour surface width height cutoff x y).testBit 1
    · rfl
    · exact absurd hy (e1.mp hb).2.1
  · cases hb : (getContour surface width height cutoff x y).testBit 0
    · rfl
    · exact absurd hy (e0.mp hb).2.1

/-- Witness for C3, on the 3×3 fixture at the boundary cell `(0, 0)`:
both left-side bits are cleared. -/
theorem contour_boundary_forcing_witness :
    (getContour wSurface 3 3 5 0 0).testBit 3 = false ∧
      (getContour wSurface 3 3 5 0 0).testBit 0 = false :=
  (contour_boundary_forcing wSurface 3 3 5 0 0).1 rfl

/-! ### Interpolator lemmas -/

/-- Claim C9: before any fraction is computed, `interpolate` replaces
boundary-adjacent corner samples with the cutoff itself: `x = 0` replaces
top-left and bottom-left, `y = 0` replaces top-left and top-right,
`y = height - 2` replaces bottom-left and bottom-right, `x = width - 2`
replaces top-right and bottom-right. -/
theorem interpolate_boundary_override (cutoff : ℚ) (surface : ℤ → ℚ)
    (width height x y : ℤ) :
    (x = 0 → (adjustCorners cutoff surface width height x y).topLeft = cutoff ∧
      (adjustCorners cutoff surface width height x y).botLeft = cutoff) ∧
    (y = 0 → (adjustCorners cutoff surface width height x y).topLeft = cutoff ∧
      (adjustCorners cutoff surface width height x y).topRight = cutoff) ∧
    (y = height - 2 → (adjustCorners cutoff surface width height x y).botLeft = cutoff ∧
      (adjustCorners cutoff surface width height x y).botRight = cutoff) ∧
    (x = width - 2 → (adjustCorners cutoff surface width height x y).topRight = cutoff ∧
      (adjustCorners cutoff surface width height x y).botRight = cutoff) := by
  simp only [adjustCorners]
  split_ifs <;> simp_all

/-- Witness for C9, on the 3×3 fixture at the left-boundary cell
`(0, 1)`: the two left corners are replaced by the cutoff. -/
theorem interpolate_boundary_override_witness :
    (adjustCorners 5 wSurface 3 3 0 1).topLeft = 5 ∧
      (adjustCorners 5 wSurface 3 3 0 1).botLeft = 5 :=
  (interpolate_boundary_override 5 wSurface 3 3 0 1).1 rfl

/-- Counterexample for C5: the fraction guard tests only
`isNaN(frac) || frac === Infinity`, so a fraction of `-Infinity` is not
substituted with `0.5`; `interpolate` then propagates the non-finite
value into the returned coordinate.  Entering cell `(5, 5)` from the
right on a constant surface of 10 with cutoff 5 computes the fraction
`(5 - 10) / (10 - 10) = -Infinity` and returns it in the `y`
coordinate. -/
theorem fraction_negInf_counterexample :
    ensureFractionIsNumber JSNum.negInf = JSNum.negInf ∧
    JSNum.negInf ≠ JSNum.finite (1/2) ∧
    interpolate 5 100 6 5 (fun _ => 10) 100 5 5 =
      some (JSNum.finite 6, JSNum.negInf) := by
  refine ⟨rfl, by decide, ?_⟩
  norm_num [interpolate, adjustCorners, jsDiv, ensureFractionIsNumber, jsAddQ]
  rfl

/-- Claim C5 as amended: the fraction guard substitutes `0.5` exactly for
NaN and `+Infinity`; a finite fraction passes through unchanged, and so
does `-Infinity`, which the guard does not test for. -/
theorem fraction_substitution_amended :
    ensureFractionIsNumber JSNum.nan = JSNum.finite (1/2) ∧
    ensureFractionIsNumber JSNum.posInf = JSNum.finite (1/2) ∧
    (∀ q : ℚ, ensureFractionIsNumber (JSNum.finite q) = JSNum.finite q) ∧
    ensureFractionIsNumber JSNum.negInf = JSNum.negInf :=
  ⟨rfl, rfl, fun q => rfl, rfl⟩

/-! ### Ring tracer: the exit-direction table -/

/-- Claim C1: the tracer's exit-direction table.  Cases 1, 3, 7 exit
`-x`; cases 4, 12, 13 exit `+x`; cases 2, 6, 14 exit `+y`; cases 8, 9, 11
exit `-y`.  Case 5 exits `+x` when entered from below (`prevy > y`) and
`-x` when entered from above (`prevy < y`); case 10 exits `+y` when
entered from the left (`prevx < x`) and `-y` when entered from the right
(`prevx > x`); any other saddle entry holds position. -/
theorem followLoop_exit_table :
    (∀ px py x y : ℤ, followLoop 1 px py x y = some (x - 1, y)) ∧
    (∀ px py x y : ℤ, followLoop 3 px py x y = some (x - 1, y)) ∧
    (∀ px py x y : ℤ, followLoop 7 px py x y = some (x - 1, y)) ∧
    (∀ px py x y : ℤ, followLoop 4 px py x y = some (x + 1, y)) ∧
    (∀ px py x y : ℤ, followLoop 12 px py x y = some (x + 1, y)) ∧
    (∀ px py x y : ℤ, followLoop 13 px py x y = some (x + 1, y)) ∧
    (∀ px py x y : ℤ, followLoop 2 px py x y = some (x, y + 1)) ∧
    (∀ px py x y : ℤ, followLoop 6 px py x y = some (x, y + 1)) ∧
    (∀ px py x y : ℤ, followLoop 14 px py x y = some (x, y + 1)) ∧
    (∀ px py x y : ℤ, followLoop 8 px py x y = some (x, y - 1)) ∧
    (∀ px py x y : ℤ, followLoop 9 px py x y = some (x, y - 1)) ∧
    (∀ px py x y : ℤ, followLoop 11 px py x y = some (x, y - 1)) ∧
    (∀ px py x y : ℤ, py > y → followLoop 5 px py x y = some (x + 1, y)) ∧
    (∀ px py x y : ℤ, py < y → followLoop 5 px py x y = some (x - 1, y)) ∧
    (∀ px py x y : ℤ, py = y → followLoop 5 px py x y = some (x, y)) ∧
    (∀ px py x y : ℤ, px < x → followLoop 10 px py x y = some (x, y + 1)) ∧
    (∀ px py x y : ℤ, px > x → followLoop 10 px py x y = some (x, y - 1)) ∧
    (∀ px py x y : ℤ, px = x → followLoop 10 px py x y = some (x, y)) := by
  refine ⟨fun px py x y => rfl, fun px py x y => rfl, fun px py x y => rfl,
    fun px py x y => rfl, fun px py x y => rfl, fun px py x y => rfl,
    fun px py x y => rfl, fun px py x y => rfl, fun px py x y => rfl,
    fun px py x y => rfl, fun px py x y => rfl, fun px py x y => rfl,
    ?_, ?_, ?_, ?_, ?_, ?_⟩ <;>
    intro px py x y h <;>
    simp only [followLoop] <;>
    split_ifs <;> first | rfl | omega

/-- Witness for C1: case 5 entered from below exits `+x`; case 10 entered
from the left exits `+y`; case 5 entered level holds position. -/
theorem followLoop_exit_table_witness :
    ((1 : ℤ) > 0 ∧ followLoop 5 0 1 0 0 = some (1, 0)) ∧
    ((-1 : ℤ) < 0 ∧ followLoop 10 (-1) 0 0 0 = some (0, 1)) ∧
    followLoop 5 0 0 0 0 = some (0, 0) := by
  obtain ⟨-, -, -, -, -, -, -, -, -, -, -, -, c5below, -, c5hold, c10left, -, -⟩ :=
    followLoop_exit_table
  exact ⟨⟨by decide, c5below 0 1 0 0 (by decide)⟩,
    ⟨by decide, c10left (-1) 0 0 0 (by decide)⟩, c5hold 0 0 0 0 rfl⟩

/-! ### Ring tracer: step inversion -/

/-- `interpolate` falls through every branch (returns `undefined`)
exactly when the cell did not move. -/
lemma interpolate_none_iff (cutoff : ℚ) (height startx starty : ℤ)
    (surface : ℤ → ℚ) (width x y : ℤ) :
    interpolate cutoff height startx starty surface width x y = none ↔
      startx = x ∧ starty = y := by
  simp only [interpolate]
  split_ifs <;> simp <;> omega

/-- `noInterpolate` falls through every branch exactly when the cell did
not move. -/
lemma noInterpolate_none_iff (startx starty x y : ℤ) :
    noInterpolate startx starty x y = none ↔ startx = x ∧ starty = y := by
  simp only [noInterpolate]
  split_ifs <;> simp <;> omega

/-- Inversion of a continuing tracer step: it moved via `followLoop`, got
a coordinate, stayed within the size cap, and did not return to the scan
origin; the new state's history and accumulator are as the loop body
writes them. -/
lemma ringStep_next_inv {p : Params} {contour : ℤ → ℤ → ℕ} {origx origy : ℤ}
    {s s' : RingState} (h : ringStep p contour origx origy s = StepResult.next s') :
    ∃ nx ny coord,
      followLoop (contour s.x s.y) s.startx s.starty s.x s.y = some (nx, ny) ∧
      (if p.interpolation then
          interpolate p.cutoff p.height s.x s.y p.surface p.width nx ny
        else noInterpolate s.x s.y nx ny) = some coord ∧
      s'.x = nx ∧ s'.y = ny ∧ s'.startx = s.x ∧ s'.starty = s.y ∧
      s'.direction = s.direction + (nx - s.x) * (ny + s.y) ∧
      s'.coords = s.coords ++ [p.project coord] ∧
      s'.coords.length ≤ p.maxCoordinates ∧ ¬(nx = origx ∧ ny = origy) := by
  by_cases h1 : s.found s.x s.y
  · simp only [ringStep, if_pos h1] at h
    exact StepResult.noConfusion h
  · simp only [ringStep, if_neg h1] at h
    by_cases h2 : contour s.x s.y = 0 ∨ contour s.x s.y = 15
    · rw [if_pos h2] at h
      exact StepResult.noConfusion h
    · rw [if_neg h2] at h
      set F := if contour s.x s.y ≠ 5 ∧ contour s.x s.y ≠ 10 then
        markFound s.found s.x s.y else s.found with hF
      split at h
      · exact StepResult.noConfusion h
      · rename_i nx ny hfl
        split at h
        · exact StepResult.noConfusion h
        · rename_i coord hc
          split_ifs at h with h3 h4 <;>
            first
              | exact StepResult.noConfusion h
              | (injection h with h5
                 subst h5
                 exact ⟨nx, ny, coord, hfl, hc, rfl, rfl, rfl, rfl, rfl, rfl,
                   Nat.not_lt.mp h3, h4⟩)

/-- Inversion of a closing tracer step: it moved via `followLoop` back to
the scan origin, got a coordinate, stayed within the size cap, the shell
flag is the winding test, and the emitted ring is the coordinate list
with its first element appended. -/
lemma ringStep_closed_inv {p : Params} {contour : ℤ → ℤ → ℕ} {origx origy : ℤ}
    {s : RingState} {b : Bool} {r : Ring} {s' : RingState}
    (h : ringStep p contour origx origy s = StepResult.closed b r s') :
    ∃ nx ny coord,
      followLoop (contour s.x s.y) s.startx s.starty s.x s.y = some (nx, ny) ∧
      (if p.interpolation then
          interpolate p.cutoff p.height s.x s.y p.surface p.width nx ny
        else noInterpolate s.x s.y nx ny) = some coord ∧
      s'.x = nx ∧ s'.y = ny ∧ s'.startx = s.x ∧ s'.starty = s.y ∧
      s'.direction = s.direction + (nx - s.x) * (ny + s.y) ∧
      s'.coords = s.coords ++ [p.project coord] ∧
      s'.coords.length ≤ p.maxCoordinates ∧
      nx = origx ∧ ny = origy ∧
      b = decide (s'.direction > 0) ∧
      r = s'.coords ++ [s'.coords.headI] := by
  by_cases h1 : s.found s.x s.y
  · simp only [ringStep, if_pos h1] at h
    exact StepResult.noConfusion h
  · simp only [ringStep, if_neg h1] at h
    by_cases h2 : contour s.x s.y = 0 ∨ contour s.x s.y = 15
    · rw [if_pos h2] at h
      exact StepResult.noConfusion h
    · rw [if_neg h2] at h
      set F := if contour s.x s.y ≠ 5 ∧ contour s.x s.y ≠ 10 then
        markFound s.found s.x s.y else s.found with hF
      split at h
      · exact StepResult.noConfusion h
      · rename_i nx ny hfl
        split at h
        · exact StepResult.noConfusion h
        · rename_i coord hc
          split_ifs at h with h3 h4 <;>
            first
              | exact StepResult.noConfusion h
              | (injection h with hb hr hs
                 subst hb
                 subst hr
                 subst hs
                 exact ⟨nx, ny, coord, hfl, hc, rfl, rfl, rfl, rfl, rfl, rfl,
                   Nat.not_lt.mp h3, h4.1, h4.2, rfl, rfl⟩)

/-- Claim C4: every continuing or closing tracer step updates the
accumulator by `direction += (newX - oldX) * (newY + oldY)`, and a
closing step tags the ring a shell exactly when the accumulated direction
is strictly positive — in particular an accumulated direction of zero
yields a hole. -/
theorem winding_accumulation :
    (∀ (p : Params) (contour : ℤ → ℤ → ℕ) (origx origy : ℤ) (s s' : RingState),
        ringStep p contour origx origy s = StepResult.next s' →
        s'.direction = s.direction + (s'.x - s.x) * (s'.y + s.y)) ∧
    (∀ (p : Params) (contour : ℤ → ℤ → ℕ) (origx origy : ℤ) (s : RingState)
        (b : Bool) (r : Ring) (s' : RingState),
        ringStep p contour origx origy s = StepResult.closed b r s' →
        s'.direction = s.direction + (s'.x - s.x) * (s'.y + s.y) ∧
        (b = true ↔ s'.direction > 0) ∧ (s'.direction = 0 → b = false)) := by
  constructor
  · intro p contour origx origy s s' h
    obtain ⟨nx, ny, coord, -, -, hx, hy, -, -, hdir, -, -, -⟩ := ringStep_next_inv h
    rw [hdir, hx, hy]
  · intro p contour origx origy s b r s' h
    obtain ⟨nx, ny, coord, -, -, hx, hy, -, -, hdir, -, -, -, -, hb, -⟩ :=
      ringStep_closed_inv h
    refine ⟨by rw [hdir, hx, hy], ?_, ?_⟩
    · rw [hb]
      exact decide_eq_true_iff
    · intro h0
      rw [hb, h0]
      decide

/-- Witness for C4: the first step of the fixture trace satisfies the
accumulator equation, and the closing step's shell flag is the winding
test. -/
theorem winding_accumulation_witness :
    wState1.direction =
      wState0.direction + (wState1.x - wState0.x) * (wState1.y + wState0.y) ∧
    (wB = true ↔ wState4.direction > 0) :=
  ⟨winding_accumulation.1 wParams wContour 0 0 wState0 wState1 rfl,
   (winding_accumulation.2 wParams wContour 0 0 wState3 wB wRing wState4 rfl).2.1⟩

/-- Claim C10: the per-step coordinate computation returns `undefined`
exactly when the cell did not move, and a step that continues or closes
the ring always moved; a trace that aborts (as after an unmoved saddle
step) leaves the scan's shells and holes unchanged — only the `found`
marks survive, so the in-progress ring is discarded in full. -/
theorem coordinate_shift_guard :
    (∀ (cutoff : ℚ) (height startx starty : ℤ) (surface : ℤ → ℚ) (width x y : ℤ),
        interpolate cutoff height startx starty surface width x y = none ↔
          startx = x ∧ starty = y) ∧
    (∀ startx starty x y : ℤ,
        noInterpolate startx starty x y = none ↔ startx = x ∧ starty = y) ∧
    (∀ (p : Params) (contour : ℤ → ℤ → ℕ) (origx origy : ℤ) (s s' : RingState),
        ringStep p contour origx origy s = StepResult.next s' →
        s'.x ≠ s'.startx ∨ s'.y ≠ s'.starty) ∧
    (∀ (p : Params) (contour : ℤ → ℤ → ℕ) (origx origy : ℤ) (s : RingState)
        (b : Bool) (r : Ring) (s' : RingState),
        ringStep p contour origx origy s = StepResult.closed b r s' →
        s'.x ≠ s'.startx ∨ s'.y ≠ s'.starty) ∧
    (∀ (p : Params) (contour : ℤ → ℤ → ℕ) (acc : ScanAcc) (cell : ℤ × ℤ)
        (s' : RingState),
        traceRing p contour cell.1 cell.2 (p.maxCoordinates + 2)
            (initRing acc.found cell.1 cell.2) = TraceResult.aborted s' →
        visitCell p contour acc cell = Except.ok acc ∨
        visitCell p contour acc cell = Except.ok { acc with found := s'.found }) := by
  refine ⟨interpolate_none_iff, noInterpolate_none_iff, ?_, ?_, ?_⟩
  · intro p contour origx origy s s' h
    obtain ⟨nx, ny, coord, -, hc, hx, hy, hsx, hsy, -, -, -, -⟩ := ringStep_next_inv h
    rw [hx, hsx, hy, hsy]
    by_contra hcon
    push_neg at hcon
    rw [hcon.1, hcon.2] at hc
    by_cases hi : p.interpolation
    · rw [if_pos hi, (interpolate_none_iff _ _ _ _ _ _ _ _).mpr ⟨rfl, rfl⟩] at hc
      exact Option.noConfusion hc
    · rw [if_neg hi, (noInterpolate_none_iff _ _ _ _).mpr ⟨rfl, rfl⟩] at hc
      exact Option.noConfusion hc
  · intro p contour origx origy s b r s' h
    obtain ⟨nx, ny, coord, -, hc, hx, hy, hsx, hsy, -, -, -, -, -, -, -⟩ :=
      ringStep_closed_inv h
    rw [hx, hsx, hy, hsy]
    by_contra hcon
    push_neg at hcon
    rw [hcon.1, hcon.2] at hc
    by_cases hi : p.interpolation
    · rw [if_pos hi, (interpolate_none_iff _ _ _ _ _ _ _ _).mpr ⟨rfl, rfl⟩] at hc
      exact Option.noConfusion hc
    · rw [if_neg hi, (noInterpolate_none_iff _ _ _ _).mpr ⟨rfl, rfl⟩] at hc
      exact Option.noConfusion hc
  · intro p contour acc cell s' htr
    simp only [visitCell]
    split_ifs
    · left
      rfl
    · left
      rfl
    · rw [htr]
      right
      rfl

/-- Witness for C10: the fixture's first step continues and has indeed
moved away from its start cell. -/
theorem coordinate_shift_guard_witness :
    wState1.x ≠ wState1.startx ∨ wState1.y ≠ wState1.starty :=
  coordinate_shift_guard.2.2.1 wParams wContour 0 0 wState0 wState1 rfl

/-! ### Ring tracer: rings emitted by closing steps -/

/-- Every ring emitted by a closing step is non-empty, starts and ends
with the same coordinate, and holds at most `maxCoordinates + 1`
coordinates. -/
lemma ringStep_closed_ring {p : Params} {contour : ℤ → ℤ → ℕ} {origx origy : ℤ}
    {s : RingState} {b : Bool} {r : Ring} {s' : RingState}
    (h : ringStep p contour origx origy s = StepResult.closed b r s') :
    r ≠ [] ∧ r.head? = r.getLast? ∧ r.length ≤ p.maxCoordinates + 1 := by
  obtain ⟨nx, ny, coord, -, -, -, -, -, -, -, hcoords, hlen, -, -, -, hr⟩ :=
    ringStep_closed_inv h
  have hne : s'.coords ≠ [] := by
    rw [hcoords]
    simp
  obtain ⟨a, t, hl⟩ := List.exists_cons_of_ne_nil hne
  subst hr
  rw [hl]
  refine ⟨by simp, ?_, ?_⟩
  · rw [List.getLast?_concat]
    simp [List.headI]
  · simp only [List.length_append, List.length_cons, List.length_nil]
    have : (a :: t).length ≤ p.maxCoordinates := hl ▸ hlen
    simp only [List.length_cons] at this
    omega

/-- The property of closing-step rings lifts through the fuel-indexed
trace loop. -/
lemma traceRing_closed_prop {p : Params} {contour : ℤ → ℤ → ℕ} {origx origy : ℤ}
    (Q : Ring → Prop)
    (hQ : ∀ s b r s', ringStep p contour origx origy s = StepResult.closed b r s' → Q r) :
    ∀ (fuel : ℕ) (s : RingState) (b : Bool) (r : Ring) (s' : RingState),
      traceRing p contour origx origy fuel s = TraceResult.closed b r s' → Q r := by
  intro fuel
  induction fuel with
  | zero =>
    intro s b r s' h
    simp only [traceRing] at h
    exact TraceResult.noConfusion h
  | succ n ih =>
    intro s b r s' h
    simp only [traceRing] at h
    split at h
    · exact TraceResult.noConfusion h
    · exact TraceResult.noConfusion h
    · rename_i b1 r1 s1 hstep
      injection h with hb hr hs
      subst hb
      subst hr
      exact hQ _ _ _ _ hstep
    · rename_i s1 hstep
      exact ih s1 b r s' h

/-- One scan-cell visit preserves a closing-ring property of the
accumulated shells and holes. -/
lemma visitCell_prop {p : Params} {contour : ℤ → ℤ → ℕ} (Q : Ring → Prop)
    (hQ : ∀ origx origy s b r s',
      ringStep p contour origx origy s = StepResult.closed b r s' → Q r)
    {acc : ScanAcc} {cell : ℤ × ℤ} {acc' : ScanAcc}
    (hacc : AccProp Q acc) (h : visitCell p contour acc cell = Except.ok acc') :
    AccProp Q acc' := by
  simp only [visitCell] at h
  split_ifs at h
  · cases h
    exact hacc
  · cases h
    exact hacc
  · split at h
    · rename_i b1 r1 s1 htr
      have hr1 : Q r1 := traceRing_closed_prop Q (hQ cell.1 cell.2) _ _ _ _ _ htr
      split_ifs at h <;> cases h
      · refine ⟨?_, fun rr hrr => hacc.2 rr hrr⟩
        intro poly hp rr hrr
        rcases List.mem_append.mp hp with hp | hp
        · exact hacc.1 poly hp rr hrr
        · rw [List.mem_singleton.mp hp] at hrr
          rw [List.mem_singleton.mp hrr]
          exact hr1
      · refine ⟨fun poly hp rr hrr => hacc.1 poly hp rr hrr, fun rr hrr => ?_⟩
        rcases List.mem_append.mp hrr with hh | hh
        · exact hacc.2 rr hh
        · rw [List.mem_singleton.mp hh]
          exact hr1
    · rename_i s1 htr
      cases h
      exact hacc
    · exact Except.noConfusion h
    · exact Except.noConfusion h

/-- The whole scan fold preserves a closing-ring property. -/
lemma foldlM_visit_prop {p : Params} {contour : ℤ → ℤ → ℕ} (Q : Ring → Prop)
    (hQ : ∀ origx origy s b r s',
      ringStep p contour origx origy s = StepResult.closed b r s' → Q r) :
    ∀ (cells : List (ℤ × ℤ)) (acc acc' : ScanAcc), AccProp Q acc →
      List.foldlM (visitCell p contour) acc cells = Except.ok acc' →
      AccProp Q acc' := by
  intro cells
  induction cells with
  | nil =>
    intro acc acc' ha h
    simp only [List.foldlM_nil, pure, Except.pure] at h
    cases h
    exact ha
  | cons c cs ih =>
    intro acc acc' ha h
    rw [List.foldlM_cons] at h
    rcases hv : visitCell p contour acc c with e | a <;> rw [hv] at h <;>
      simp only [bind, Except.bind] at h
    · exact Except.noConfusion h
    · exact ih a acc' (visitCell_prop Q hQ ha hv) h

/-- Every ring of a polygon produced by `addHole` is either a ring of one
of the input shells or the added hole ring itself. -/
lemma addHole_ring_mem {inside : Coord → Poly → Bool} {hp : Coord} {ring : Ring} :
    ∀ (ss : List Poly) (poly : Poly), poly ∈ addHole inside hp ring ss →
      ∀ r ∈ poly, (∃ poly' ∈ ss, r ∈ poly') ∨ r = ring := by
  intro ss
  induction ss with
  | nil =>
    intro poly hpm
    simp [addHole] at hpm
  | cons shell rest ih =>
    intro poly hpm r hr
    simp only [addHole] at hpm
    split_ifs at hpm
    · rcases List.mem_cons.mp hpm with hp1 | hp1
      · subst hp1
        rcases List.mem_append.mp hr with hr1 | hr1
        · exact Or.inl ⟨shell, List.mem_cons_self shell rest, hr1⟩
        · exact Or.inr (List.mem_singleton.mp hr1)
      · exact Or.inl ⟨poly, List.mem_cons_of_mem shell hp1, hr⟩
    · rcases List.mem_cons.mp hpm with hp1 | hp1
      · subst hp1
        exact Or.inl ⟨poly, List.mem_cons_self poly rest, hr⟩
      · rcases ih poly hp1 r hr with ⟨p2, hp2, hr2⟩ | hr2
        · exact Or.inl ⟨p2, List.mem_cons_of_mem shell hp2, hr2⟩
        · exact Or.inr hr2

/-- Every ring of a polygon produced by the nesting pass is either a ring
of one of the input shells or one of the input hole rings. -/
lemma nestHoles_ring_mem {inside : Coord → Poly → Bool} :
    ∀ (holes : List Ring) (ss : List Poly) (poly : Poly),
      poly ∈ nestHoles inside ss holes → ∀ r ∈ poly,
      (∃ poly' ∈ ss, r ∈ poly') ∨ r ∈ holes := by
  intro holes
  induction holes with
  | nil =>
    intro ss poly h r hr
    simp only [nestHoles, List.foldl_nil] at h
    exact Or.inl ⟨poly, h, hr⟩
  | cons hole hs ih =>
    intro ss poly h r hr
    simp only [nestHoles, List.foldl_cons] at h
    have h' : poly ∈ nestHoles inside (addHole inside hole.headI hole ss) hs := h
    rcases ih _ poly h' r hr with ⟨p2, hp2, hr2⟩ | hh
    · rcases addHole_ring_mem ss p2 hp2 r hr2 with hin | heq
      · exact Or.inl hin
      · rw [heq]
        exact Or.inr (List.mem_cons_self hole hs)
    · exact Or.inr (List.mem_cons_of_mem hole hh)

/-- Every ring of the final output satisfies any property enjoyed by all
closing-step rings. -/
lemma jsolines_ring_prop {p : Params} (Q : Ring → Prop)
    (hQ : ∀ (contour : ℤ → ℤ → ℕ) origx origy s b r s',
      ringStep p contour origx origy s = StepResult.closed b r s' → Q r)
    {out : List Poly} (h : jsolines p = Except.ok out) :
    ∀ poly ∈ out, ∀ r ∈ poly, Q r := by
  intro poly hp r hr
  simp only [jsolines] at h
  split at h
  · exact Except.noConfusion h
  · rename_i acc hs
    injection h with ho
    subst ho
    simp only [scanAll] at hs
    have hAcc : AccProp Q acc :=
      foldlM_visit_prop Q (hQ _) (scanCells p.width p.height) initAcc acc
        ⟨by intro poly hp r hr; simp [initAcc] at hp,
         by intro r hr; simp [initAcc] at hr⟩ hs
    rcases nestHoles_ring_mem acc.holes acc.shells poly hp r hr with ⟨p2, hp2, hr2⟩ | hh
    · exact hAcc.1 p2 hp2 r hr2
    · exact hAcc.2 r hh

/-- Claim C6: every ring of the output geometry — each shell's outer
boundary and each hole ring nested into a shell — is a non-empty closed
coordinate sequence whose first coordinate equals its last. -/
theorem output_rings_closed (p : Params) (out : List Poly)
    (h : jsolines p = Except.ok out) :
    ∀ poly ∈ out, ∀ r ∈ poly, r ≠ [] ∧ r.head? = r.getLast? :=
  jsolines_ring_prop (fun r => r ≠ [] ∧ r.head? = r.getLast?)
    (fun _ _ _ _ _ _ _ hstep =>
      ⟨(ringStep_closed_ring hstep).1, (ringStep_closed_ring hstep).2.1⟩) h

/-- Witness for C6: the single output ring of the 3×3 fixture is
non-empty and closed. -/
theorem output_rings_closed_witness :
    wRing0 ≠ [] ∧ wRing0.head? = wRing0.getLast? := by
  have hout : jsolines wParams = Except.ok wOut := rfl
  have h1 : wOut = [wOut.headI] := rfl
  have h2 : wOut.headI = [wRing0] := rfl
  refine output_rings_closed wParams wOut hout wOut.headI ?_ wRing0 ?_
  · rw [h1]
    exact List.mem_singleton_self _
  · rw [h2]
    exact List.mem_singleton_self _

/-- Claim C7: the default coordinate cap is in the 10,000–20,000 range; a
step from a state already holding at least `maxCoordinates` coordinates
can neither continue nor close (the ring is aborted and discarded, and
the scan goes on — no exception is modelled anywhere in the pipeline);
and every ring of the output holds at most `maxCoordinates + 1`
coordinates, so no oversized ring is ever emitted, truncated or
otherwise. -/
theorem ring_size_guard :
    (10000 ≤ MAX_COORDS ∧ MAX_COORDS ≤ 20000) ∧
    (∀ (p : Params) (contour : ℤ → ℤ → ℕ) (origx origy : ℤ) (s : RingState),
        p.maxCoordinates ≤ s.coords.length →
        (∀ s', ringStep p contour origx origy s ≠ StepResult.next s') ∧
        (∀ b r s', ringStep p contour origx origy s ≠ StepResult.closed b r s')) ∧
    (∀ (p : Params) (out : List Poly), jsolines p = Except.ok out →
        ∀ poly ∈ out, ∀ r ∈ poly, r.length ≤ p.maxCoordinates + 1) := by
  refine ⟨⟨by norm_num [MAX_COORDS], by norm_num [MAX_COORDS]⟩, ?_, ?_⟩
  · intro p contour origx origy s hfull
    constructor
    · intro s' hstep
      obtain ⟨nx, ny, coord, -, -, -, -, -, -, -, hcoords, hlen, -⟩ :=
        ringStep_next_inv hstep
      rw [hcoords] at hlen
      simp only [List.length_append, List.length_cons, List.length_nil] at hlen
      omega
    · intro b r s' hstep
      obtain ⟨nx, ny, coord, -, -, -, -, -, -, -, hcoords, hlen, -, -, -, -⟩ :=
        ringStep_closed_inv hstep
      rw [hcoords] at hlen
      simp only [List.length_append, List.length_cons, List.length_nil] at hlen
      omega
  · intro p out h
    exact jsolines_ring_prop (fun r => r.length ≤ p.maxCoordinates + 1)
      (fun _ _ _ _ _ _ _ hstep => (ringStep_closed_ring hstep).2.2) h

/-- Witness for C7: a fixture state holding `maxCoordinates` coordinates
cannot step to a continuation, and the fixture's output ring respects the
size bound. -/
theorem ring_size_guard_witness :
    wParams.maxCoordinates ≤ wFull.coords.length ∧
    ringStep wParams wContour 0 0 wFull ≠ StepResult.next wState1 ∧
    wRing0.length ≤ wParams.maxCoordinates + 1 := by
  have hlen : wParams.maxCoordinates ≤ wFull.coords.length := by decide
  refine ⟨hlen, (ring_size_guard.2.1 wParams wContour 0 0 wFull hlen).1 wState1, ?_⟩
  have hout : jsolines wParams = Except.ok wOut := rfl
  have h1 : wOut = [wOut.headI] := rfl
  have h2 : wOut.headI = [wRing0] := rfl
  refine ring_size_guard.2.2 wParams wOut hout wOut.headI ?_ wRing0 ?_
  · rw [h1]
    exact List.mem_singleton_self _
  · rw [h2]
    exact List.mem_singleton_self _

/-! ### Nester -/

/-- Claim C8: the nesting pass tests each hole's first coordinate against
the shells in order; the hole's ring is appended to the first shell the
test accepts, the shells before it are untouched, and a hole no shell
contains is dropped, leaving the shells unchanged — the pass is total, so
no error ever reaches the caller.  Each hole of the list is processed in
discovery order via its first coordinate. -/
theorem hole_nesting :
    (∀ (inside : Coord → Poly → Bool) (hp : Coord) (ring : Ring) (ss : List Poly),
        (∀ s ∈ ss, inside hp s = false) → addHole inside hp ring ss = ss) ∧
    (∀ (inside : Coord → Poly → Bool) (hp : Coord) (ring : Ring)
        (pre post : List Poly) (shell : Poly),
        (∀ s ∈ pre, inside hp s = false) → inside hp shell = true →
        addHole inside hp ring (pre ++ shell :: post) =
          pre ++ (shell ++ [ring]) :: post) ∧
    (∀ (inside : Coord → Poly → Bool) (ss : List Poly) (hole : Ring)
        (hs : List Ring),
        nestHoles inside ss (hole :: hs) =
          nestHoles inside (addHole inside hole.headI hole ss) hs) ∧
    (∀ (inside : Coord → Poly → Bool) (ss : List Poly),
        nestHoles inside ss [] = ss) := by
  refine ⟨?_, ?_, fun inside ss hole hs => rfl, fun inside ss => rfl⟩
  · intro inside hp ring ss
    induction ss with
    | nil => intro h; rfl
    | cons shell rest ih =>
      intro h
      simp only [addHole]
      rw [if_neg (by simp [h shell (List.mem_cons_self shell rest)]),
        ih fun s hs => h s (List.mem_cons_of_mem shell hs)]
  · intro inside hp ring pre post shell
    induction pre with
    | nil =>
      intro hpre hs
      simp only [List.nil_append, addHole]
      rw [if_pos hs]
    | cons q rest ih =>
      intro hpre hs
      simp only [List.cons_append, addHole]
      rw [if_neg (by simp [hpre q (List.mem_cons_self q rest)])]
      exact congrArg (fun l => q :: l)
        (ih (fun s hs' => hpre s (List.mem_cons_of_mem q hs')) hs)

/-- Witness for C8: with a containment stub accepting exactly non-empty
polygons, the hole ring is appended to the second shell of two, the first
being skipped. -/
theorem hole_nesting_witness :
    wInside (JSNum.finite 0, JSNum.finite 0) wPolyA = false ∧
    wInside (JSNum.finite 0, JSNum.finite 0) wPolyB = true ∧
    addHole wInside (JSNum.finite 0, JSNum.finite 0) wHoleRing [wPolyA, wPolyB] =
      [wPolyA, wPolyB ++ [wHoleRing]] := by
  have hpre : ∀ s ∈ [wPolyA], wInside (JSNum.finite 0, JSNum.finite 0) s = false := by
    intro s hs
    rw [List.mem_singleton.mp hs]
    rfl
  have hshell : wInside (JSNum.finite 0, JSNum.finite 0) wPolyB = true := rfl
  refine ⟨rfl, hshell, ?_⟩
  exact hole_nesting.2.1 wInside (JSNum.finite 0, JSNum.finite 0) wHoleRing
    [wPolyA] [] wPolyB hpre hshell

end Jsolines
